import Mathlib

/-!
# Verification of orqviz src/orqviz/pca/data_structures.py

A shallow embedding of the PCA wrapper `PCAobject` and its operations.
Numeric entries are modelled as exact rationals.  The fitting routine of the
external library (sklearn.decomposition.PCA.fit) is not part of this
repository, so the wrapper is parameterised over an arbitrary fallible
fitting function; the properties the spec attributes to the library's fit
result (mean, component count, orthonormality, variance ordering) appear as
hypotheses on that parameter.  The library's transform / inverse_transform
primitives are modelled from the spec's collaborator contract.
-/

set_option autoImplicit false

namespace Orqviz

/-- A flat numeric vector (one row of a 2-D numpy array). -/
abbrev Vec := List ℚ

/-- A 2-D numeric array as a list of rows. -/
abbrev Mat := List Vec

/-- Dot product of two vectors (numpy `np.dot` on 1-D arrays of equal length;
truncates at the shorter length, which never happens on well-formed data). -/
def dot (x y : Vec) : ℚ := (List.zipWith (· * ·) x y).sum

/-- Elementwise subtraction (numpy broadcasted `-` on equal-length rows). -/
def vsub (x y : Vec) : Vec := List.zipWith (· - ·) x y

/-- Scalar multiple of a vector. -/
def smul (c : ℚ) (x : Vec) : Vec := x.map (fun a => c * a)

/-- Elementwise addition, keeping the tail of the longer argument.  On
equal-length vectors this is numpy's elementwise `+`. -/
def addPad : Vec → Vec → Vec
  | [], ys => ys
  | x :: xs, [] => x :: xs
  | x :: xs, y :: ys => (x + y) :: addPad xs ys

/-- Vector-matrix product `np.dot (coords, rows)`: the linear combination
`Σᵢ coordsᵢ • rowsᵢ` of the rows. -/
def vecMat : Vec → Mat → Vec
  | [], _ => []
  | _ :: _, [] => []
  | c :: cs, r :: rs => addPad (smul c r) (vecMat cs rs)

/-- A numpy ndarray: a shape together with the flat (C-order) data. -/
structure NdArray where
  shape : List Nat
  data : List ℚ
  deriving Repr, DecidableEq

/-- An ndarray is well formed when its data has exactly `shape.prod` entries. -/
def NdArray.wf (a : NdArray) : Prop := a.data.length = a.shape.prod

/-- Fuelled worker for `chunks`; the fuel only forces structural
termination and is irrelevant once it dominates the list length. -/
def chunksF : Nat → Nat → List ℚ → Mat
  | 0, _, _ => []
  | fuel + 1, w, l =>
    if 0 < w ∧ l ≠ [] then l.take w :: chunksF fuel w (l.drop w) else []

/-- Cut a flat list into consecutive rows of width `w`
(the row-major reading of a reshape to `(-1, w)`). -/
def chunks (w : Nat) (l : List ℚ) : Mat := chunksF l.length w l

/-- numpy `reshape (-1, w)` of flat data: succeeds exactly when `w` is
positive and divides the number of entries, yielding the rows. -/
def reshapeRows (w : Nat) (l : List ℚ) : Except String Mat :=
  if 0 < w ∧ w ∣ l.length then .ok (chunks w l) else .error "cannot reshape array"

/-- The fitted state of sklearn's PCA: the fitted mean (`mean_`) and the
principal-direction row vectors (`components_`, one row per component). -/
structure FittedPCA where
  mean : Vec
  components : Mat
  deriving Repr, DecidableEq

/-- Modelled from the spec: the collaborator library's `PCA.transform`
"projects centered input onto those directions" — each input row `r` is
mapped to the vector of dot products of `r - mean` with every fitted
component; input rows must have the fitted width. -/
def FittedPCA.transform (p : FittedPCA) (rows : Mat) : Except String Mat :=
  if rows.all (fun r => r.length = p.mean.length) then
    .ok (rows.map (fun r => p.components.map (fun c => dot (vsub r p.mean) c)))
  else .error "shape mismatch in transform"

/-- Modelled from the spec: the collaborator library's `PCA.inverse_transform`
"reconstructs via linear combination plus mean" — `np.dot (coords,
components_) + mean_`, defined only when the coordinate count equals the
number of fitted components. -/
def FittedPCA.inverse_transform (p : FittedPCA) (coords : Vec) : Except String Vec :=
  if coords.length = p.components.length then
    .ok (addPad (vecMat coords p.components) p.mean)
  else .error "shapes not aligned"

/-- The `pca` attribute of a `PCAobject`: absent before the first
`fit_pca` call, an unfitted `PCA (n_components)` instance between
construction of the sklearn object and the `fit` call, or a fitted model. -/
inductive PcaField where
  | absent : PcaField
  | unfitted (n : Nat) : PcaField
  | fitted (f : FittedPCA) : PcaField
  deriving Repr, DecidableEq

/-- The `PCAobject` dataclass: the stored point collection, the derived
parameter shape `np.shape (all_points)[1:]`, the pair of display component
indices, and the sklearn PCA attribute. -/
structure PCAobject where
  all_points : NdArray
  params_shape : List Nat
  components_ids : Nat × Nat
  pca : PcaField
  deriving Repr, DecidableEq

/-- The flattened width of one parameter vector, `np.prod (params_shape)`. -/
def PCAobject.paramsWidth (o : PCAobject) : Nat := o.params_shape.prod

/-- An abstract fallible fitting routine standing for
`PCA (n_components).fit (params)`: from the requested component count and the
data rows it produces a fitted model or raises. -/
abbrev FitFn := Nat → Mat → Except String FittedPCA

/-- `PCAobject.fit_pca`: replace `self.pca` by a fresh `PCA (n_components)`
instance, reshape the stored points to `(-1, prod (params_shape))` and fit.
On an exception the object is left with the unfitted instance (`.error`
carries the object state at the raise point). -/
def PCAobject.fit_pca (fit : FitFn) (o : PCAobject) (n : Nat) :
    Except PCAobject PCAobject :=
  let o1 := { o with pca := PcaField.unfitted n }
  match reshapeRows o.paramsWidth o.all_points.data with
  | .error _ => .error o1
  | .ok params =>
    match fit n params with
    | .error _ => .error o1
    | .ok f => .ok { o1 with pca := PcaField.fitted f }

/-- `PCAobject.__init__`: store the points, record the parameter shape from
`np.shape (all_points)[1:]`, set the component indices and fit with
`max (components_ids) + 1` components. -/
def PCAobject.init (fit : FitFn) (all_points : NdArray)
    (components_ids : Nat × Nat) : Except PCAobject PCAobject :=
  let o0 : PCAobject :=
    { all_points := all_points
      params_shape := all_points.shape.tail
      components_ids := components_ids
      pca := PcaField.absent }
  o0.fit_pca fit (Nat.max components_ids.1 components_ids.2 + 1)

/-- `PCAobject.set_component_ids`: refit with `max (new_component_ids) + 1`
components, then update `components_ids`.  If the refit raises, the
exception propagates and the indices are not assigned. -/
def PCAobject.set_component_ids (fit : FitFn) (o : PCAobject)
    (new_component_ids : Nat × Nat) : Except PCAobject PCAobject :=
  match o.fit_pca fit (Nat.max new_component_ids.1 new_component_ids.2 + 1) with
  | .error o1 => .error o1
  | .ok o2 => .ok { o2 with components_ids := new_component_ids }

/-- `PCAobject.get_transformed_points`: pick the stored points when the
argument is `none`, reshape to `(-1, prod (params_shape))` and delegate to
the fitted model's transform. -/
def PCAobject.get_transformed_points (o : PCAobject)
    (points : Option NdArray) : Except String Mat :=
  let high_dim_points := points.getD o.all_points
  match reshapeRows o.paramsWidth high_dim_points.data with
  | .error e => .error e
  | .ok rows =>
    match o.pca with
    | PcaField.fitted f => f.transform rows
    | _ => .error "PCA instance is not fitted yet"

/-- `PCAobject.get_inverse_transformed_point`: delegate to the fitted
model's inverse transform and reshape the flat result to `params_shape`. -/
def PCAobject.get_inverse_transformed_point (o : PCAobject)
    (pca_params : Vec) : Except String NdArray :=
  match o.pca with
  | PcaField.fitted f =>
    match f.inverse_transform pca_params with
    | .error e => .error e
    | .ok v =>
      if v.length = o.params_shape.prod then
        .ok { shape := o.params_shape, data := v }
      else .error "cannot reshape array"
  | _ => .error "PCA instance is not fitted yet"

/-- The `components` property: `pca.components_.reshape (-1, *params_shape)`,
the fitted direction vectors re-cut at width `prod (params_shape)` and viewed
as arrays of shape `params_shape`. -/
def PCAobject.componentsView (o : PCAobject) : Except String (List NdArray) :=
  match o.pca with
  | PcaField.fitted f =>
    match reshapeRows o.paramsWidth f.components.flatten with
    | .error e => .error e
    | .ok rows => .ok (rows.map (fun c => { shape := o.params_shape, data := c }))
  | _ => .error "PCA instance is not fitted yet"

/-- The `mean` property: `pca.mean_.reshape (*params_shape)`. -/
def PCAobject.meanView (o : PCAobject) : Except String NdArray :=
  match o.pca with
  | PcaField.fitted f =>
    if f.mean.length = o.params_shape.prod then
      .ok { shape := o.params_shape, data := f.mean }
    else .error "cannot reshape array"
  | _ => .error "PCA instance is not fitted yet"

/-- Python builtin `min` over a numpy column (raises on an empty sequence). -/
def pyMin (l : Vec) : Except String ℚ :=
  match l.min? with
  | some m => .ok m
  | none => .error "min of empty sequence"

/-- Python builtin `max` over a numpy column (raises on an empty sequence). -/
def pyMax (l : Vec) : Except String ℚ :=
  match l.max? with
  | some m => .ok m
  | none => .error "max of empty sequence"

/-- Column `j` of a 2-D array, `m[:, j]`; out-of-range indexing raises. -/
def column (j : Nat) (m : Mat) : Except String Vec :=
  if m.all (fun r => j < r.length) then .ok (m.map (fun r => r.getD j 0))
  else .error "index out of bounds"

/-- `PCAobject._get_endpoints_from_pca`: transform the stored points, then
for each of the two selected columns return
`(min + offset.1, max + offset.2)`. -/
def PCAobject.get_endpoints_from_pca (o : PCAobject) (offset : ℚ × ℚ) :
    Except String ((ℚ × ℚ) × (ℚ × ℚ)) := do
  let t ← o.get_transformed_points none
  let colx ← column o.components_ids.1 t
  let lox ← pyMin colx
  let hix ← pyMax colx
  let coly ← column o.components_ids.2 t
  let loy ← pyMin coly
  let hiy ← pyMax coly
  return ((lox + offset.1, hix + offset.2), (loy + offset.1, hiy + offset.2))

/-- `get_pca`: fit and return a `PCAobject`. -/
def get_pca (fit : FitFn) (all_points : NdArray)
    (components_ids : Nat × Nat) : Except PCAobject PCAobject :=
  PCAobject.init fit all_points components_ids

/-! ## Concrete fixtures

A four-point, two-dimensional data set on which the exact PCA fit is
rational: the points `(1,0), (3,0), (1,2), (3,2)` have mean `(2,1)` and the
coordinate axes as (equal-variance) principal directions. -/

/-- The fixture rows. -/
def witRows : Mat := [[1, 0], [3, 0], [1, 2], [3, 2]]

/-- The exact fitted model for `witRows` with two components. -/
def witModel : FittedPCA := { mean := [2, 1], components := [[1, 0], [0, 1]] }

/-- A concrete fitting function: succeeds exactly on the fixture data with
two requested components, raising on everything else. -/
def witFit : FitFn := fun n rows =>
  if n = 2 ∧ rows = witRows then .ok witModel else .error "fit failed"

/-- The fixture point collection as an ndarray of shape `(4, 2)`. -/
def witArr : NdArray := { shape := [4, 2], data := [1, 0, 3, 0, 1, 2, 3, 2] }

/-- The `PCAobject` built from the fixture data with component ids `(0, 1)`. -/
def witObj : PCAobject :=
  { all_points := witArr
    params_shape := [2]
    components_ids := (0, 1)
    pca := PcaField.fitted witModel }

/-! ## Contract predicates

The spec's collaborator contract for the external fitting routine, stated
as predicates on an abstract `FitFn` or on a fit result. -/

/-- A successful fit with `n` requested components yields exactly `n`
component rows, each as wide as the fitted mean, which itself is as wide as
the (necessarily non-empty) data rows. -/
def FitShapeOK (fit : FitFn) : Prop :=
  ∀ (n : Nat) (rows : Mat) (f : FittedPCA), fit n rows = .ok f →
    rows ≠ [] ∧ f.components.length = n ∧
    (∀ r ∈ rows, r.length = f.mean.length) ∧
    (∀ c ∈ f.components, c.length = f.mean.length)

/-- The arithmetic mean of the rows: their componentwise sum divided by the
number of rows. -/
def arithMean (rows : Mat) : Vec :=
  smul (1 / (rows.length : ℚ)) (rows.foldr addPad [])

/-- A successful fit records the arithmetic mean of the data rows. -/
def FitMeanOK (fit : FitFn) : Prop :=
  ∀ (n : Nat) (rows : Mat) (f : FittedPCA), fit n rows = .ok f →
    f.mean = arithMean rows

/-- The rows of `m` are mutually orthonormal. -/
def OrthonormalRows (m : Mat) : Prop :=
  ∀ i j : Nat, i < m.length → j < m.length →
    dot (m.getD i []) (m.getD j []) = if i = j then 1 else 0

/-- The summed squared projection of the centred rows onto a direction,
proportional to the explained variance along it. -/
def projSumSq (rows : Mat) (mean c : Vec) : ℚ :=
  (rows.map (fun r => dot (vsub r mean) c * dot (vsub r mean) c)).sum

/-- The fitted components are ordered by descending explained variance over
the given data rows. -/
def VarianceOrdered (rows : Mat) (f : FittedPCA) : Prop :=
  ∀ i j : Nat, i ≤ j → j < f.components.length →
    projSumSq rows f.mean (f.components.getD j []) ≤
      projSumSq rows f.mean (f.components.getD i [])

/-- The `j`-th column of the projection of the stored collection onto the
fitted directions: one entry per stored point. -/
def projColumn (o : PCAobject) (f : FittedPCA) (j : Nat) : Vec :=
  (chunks o.paramsWidth o.all_points.data).map
    (fun r => dot (vsub r f.mean) (f.components.getD j []))

/-! ## Support lemmas -/

theorem chunksF_nil (fuel w : Nat) : chunksF fuel w [] = [] := by
  cases fuel <;> simp [chunksF]

theorem chunksF_congr (fuel : Nat) : ∀ (fuel' w : Nat) (l : List ℚ),
    l.length ≤ fuel → l.length ≤ fuel' → chunksF fuel w l = chunksF fuel' w l := by
  induction fuel with
  | zero =>
    intro fuel' w l hl _
    have : l = [] := List.eq_nil_of_length_eq_zero (Nat.le_zero.mp hl)
    subst this
    simp [chunksF_nil]
  | succ n ih =>
    intro fuel' w l hl hl'
    cases l with
    | nil => simp [chunksF_nil]
    | cons a as =>
      cases fuel' with
      | zero => simp at hl'
      | succ m =>
        simp only [chunksF]
        by_cases hw : 0 < w
        · have hlen : (List.drop w (a :: as)).length ≤ n := by
            simp only [List.length_drop, List.length_cons]
            simp only [List.length_cons] at hl
            omega
          have hlen' : (List.drop w (a :: as)).length ≤ m := by
            simp only [List.length_drop, List.length_cons]
            simp only [List.length_cons] at hl'
            omega
          rw [ih m w _ hlen hlen']
        · simp [hw]

/-- The recursive unfolding of `chunks`. -/
theorem chunks_eq (w : Nat) (l : List ℚ) :
    chunks w l = if 0 < w ∧ l ≠ [] then l.take w :: chunks w (l.drop w) else [] := by
  cases l with
  | nil => simp [chunks, chunksF_nil]
  | cons a as =>
    show chunksF (a :: as).length w (a :: as) = _
    simp only [List.length_cons, chunksF]
    by_cases hw : 0 < w
    · have : (List.drop w (a :: as)).length ≤ as.length := by
        simp only [List.length_drop, List.length_cons]
        omega
      rw [chunksF_congr as.length (List.drop w (a :: as)).length w _ this (Nat.le_refl _)]
      rfl
    · simp [hw]

theorem chunks_nil (w : Nat) : chunks w [] = [] := rfl

theorem chunks_cons (w : Nat) (l : List ℚ) (hw : 0 < w) (hl : l ≠ []) :
    chunks w l = l.take w :: chunks w (l.drop w) := by
  rw [chunks_eq, if_pos ⟨hw, hl⟩]

theorem chunksF_row_length (w : Nat) (hw : 0 < w) : ∀ (fuel : Nat) (l : List ℚ),
    l.length ≤ fuel → w ∣ l.length → ∀ r ∈ chunksF fuel w l, r.length = w := by
  intro fuel
  induction fuel with
  | zero =>
    intro l _ _ r hr
    simp [chunksF] at hr
  | succ n ih =>
    intro l hl hdvd r hr
    cases l with
    | nil => simp [chunksF] at hr
    | cons a as =>
      rw [chunksF, if_pos ⟨hw, by simp⟩] at hr
      have hwle : w ≤ (a :: as).length := Nat.le_of_dvd (by simp) hdvd
      have hlen : (List.drop w (a :: as)).length = (a :: as).length - w := by simp
      have hdvd' : w ∣ (List.drop w (a :: as)).length := by
        rw [hlen]
        exact Nat.dvd_sub' hdvd (Nat.dvd_refl w)
      rcases List.mem_cons.mp hr with h | h
      · subst h
        simp only [List.length_take, List.length_cons]
        simp only [List.length_cons] at hwle
        omega
      · have hfuel : (List.drop w (a :: as)).length ≤ n := by
          rw [hlen]
          simp only [List.length_cons] at hl ⊢
          omega
        exact ih _ hfuel hdvd' r h

theorem chunks_row_length (w : Nat) (hw : 0 < w) (l : List ℚ) (hdvd : w ∣ l.length) :
    ∀ r ∈ chunks w l, r.length = w :=
  chunksF_row_length w hw l.length l (Nat.le_refl _) hdvd

theorem chunksF_count (w : Nat) (hw : 0 < w) : ∀ (fuel : Nat) (l : List ℚ),
    l.length ≤ fuel → w ∣ l.length → (chunksF fuel w l).length = l.length / w := by
  intro fuel
  induction fuel with
  | zero =>
    intro l hl _
    have : l = [] := List.eq_nil_of_length_eq_zero (Nat.le_zero.mp hl)
    subst this
    simp [chunksF]
  | succ n ih =>
    intro l hl hdvd
    cases l with
    | nil => simp [chunksF]
    | cons a as =>
      rw [chunksF, if_pos ⟨hw, by simp⟩]
      have hwle : w ≤ (a :: as).length := Nat.le_of_dvd (by simp) hdvd
      have hlen : (List.drop w (a :: as)).length = (a :: as).length - w := by simp
      have hdvd' : w ∣ (List.drop w (a :: as)).length := by
        rw [hlen]
        exact Nat.dvd_sub' hdvd (Nat.dvd_refl w)
      have hfuel : (List.drop w (a :: as)).length ≤ n := by
        rw [hlen]
        simp only [List.length_cons] at hl ⊢
        omega
      rw [List.length_cons, ih _ hfuel hdvd', Nat.div_eq_sub_div hw hwle, hlen]

theorem chunks_count (w : Nat) (hw : 0 < w) (l : List ℚ) (hdvd : w ∣ l.length) :
    (chunks w l).length = l.length / w :=
  chunksF_count w hw l.length l (Nat.le_refl _) hdvd

theorem chunks_singleton (w : Nat) (hw : 0 < w) (l : List ℚ) (hl : l.length = w) :
    chunks w l = [l] := by
  have hne : l ≠ [] := by
    intro h
    subst h
    simp at hl
    omega
  rw [chunks_cons w l hw hne]
  rw [List.take_of_length_le (by omega), List.drop_eq_nil_of_le (by omega), chunks_nil]

theorem chunks_flatten (w : Nat) (hw : 0 < w) :
    ∀ m : Mat, (∀ r ∈ m, r.length = w) → chunks w m.flatten = m := by
  intro m
  induction m with
  | nil => simp [chunks_nil]
  | cons r rs ih =>
    intro hr
    have hrw : r.length = w := hr r (by simp)
    have hrne : r ≠ [] := by
      intro h
      subst h
      simp at hrw
      omega
    have hne : (r :: rs).flatten ≠ [] := by
      simp only [List.flatten_cons]
      intro h
      exact hrne (List.append_eq_nil.mp h).1
    rw [List.flatten_cons] at hne ⊢
    rw [chunks_eq, if_pos ⟨hw, hne⟩, List.take_left' hrw, List.drop_left' hrw]
    rw [ih (fun x hx => hr x (by simp [hx]))]

theorem flatten_length_of_rows (w : Nat) :
    ∀ m : Mat, (∀ r ∈ m, r.length = w) → m.flatten.length = m.length * w := by
  intro m
  induction m with
  | nil => simp
  | cons r rs ih =>
    intro hr
    simp only [List.flatten_cons, List.length_append, List.length_cons]
    rw [hr r (by simp), ih (fun x hx => hr x (by simp [hx]))]
    ring

theorem addPad_nil_right (x : Vec) : addPad x [] = x := by
  cases x <;> rfl

theorem addPad_length (x : Vec) : ∀ y : Vec,
    (addPad x y).length = Nat.max x.length y.length := by
  induction x with
  | nil => intro y; simp [addPad]
  | cons a as ih =>
    intro y
    cases y with
    | nil => simp [addPad]
    | cons b bs =>
      simp only [addPad, List.length_cons, ih bs, Nat.succ_max_succ]

theorem addPad_getD (x : Vec) : ∀ (y : Vec) (i : Nat),
    (addPad x y).getD i 0 = x.getD i 0 + y.getD i 0 := by
  induction x with
  | nil =>
    intro y i
    simp [addPad]
  | cons a as ih =>
    intro y i
    cases y with
    | nil =>
      simp [addPad]
    | cons b bs =>
      cases i with
      | zero => simp [addPad]
      | succ n => simpa [addPad] using ih bs n

theorem smul_length (c : ℚ) (x : Vec) : (smul c x).length = x.length := by
  simp [smul]

theorem smul_getD (c : ℚ) (x : Vec) : ∀ i : Nat,
    (smul c x).getD i 0 = c * x.getD i 0 := by
  induction x with
  | nil => intro i; simp [smul]
  | cons a as ih =>
    intro i
    cases i with
    | zero => simp [smul]
    | succ n => simpa [smul] using ih n

theorem vsub_length (x y : Vec) : (vsub x y).length = min x.length y.length := by
  simp [vsub]

theorem vsub_getD (x : Vec) : ∀ (y : Vec) (i : Nat), i < x.length → i < y.length →
    (vsub x y).getD i 0 = x.getD i 0 - y.getD i 0 := by
  induction x with
  | nil => intro y i hi; simp at hi
  | cons a as ih =>
    intro y i hi hj
    cases y with
    | nil => simp at hj
    | cons b bs =>
      cases i with
      | zero => simp [vsub]
      | succ n =>
        have := ih bs n (by simpa using hi) (by simpa using hj)
        simpa [vsub] using this

theorem getD_map (g : Vec → ℚ) : ∀ (l : Mat) (i : Nat), i < l.length →
    (l.map g).getD i 0 = g (l.getD i []) := by
  intro l
  induction l with
  | nil => intro i hi; simp at hi
  | cons a as ih =>
    intro i hi
    cases i with
    | zero => simp
    | succ n => simpa using ih n (by simpa using hi)

theorem list_ext_getD (x : Vec) : ∀ y : Vec, x.length = y.length →
    (∀ i : Nat, x.getD i 0 = y.getD i 0) → x = y := by
  induction x with
  | nil =>
    intro y hlen _
    exact (List.eq_nil_of_length_eq_zero hlen.symm).symm
  | cons a as ih =>
    intro y hlen h
    cases y with
    | nil => simp at hlen
    | cons b bs =>
      have h0 := h 0
      simp at h0
      have : as = bs := ih bs (by simpa using hlen) (fun i => by simpa using h (i + 1))
      rw [h0, this]

theorem dot_nil_left (y : Vec) : dot [] y = 0 := rfl

theorem dot_cons (a b : ℚ) (x y : Vec) :
    dot (a :: x) (b :: y) = a * b + dot x y := by
  simp [dot]

theorem dot_eq_sum (d : Nat) : ∀ x y : Vec, x.length = d → y.length = d →
    dot x y = ∑ i : Fin d, x.getD i 0 * y.getD i 0 := by
  induction d with
  | zero =>
    intro x y hx hy
    rw [List.eq_nil_of_length_eq_zero hx, List.eq_nil_of_length_eq_zero hy]
    simp [dot_nil_left]
  | succ n ih =>
    intro x y hx hy
    cases x with
    | nil => simp at hx
    | cons a as =>
      cases y with
      | nil => simp at hy
      | cons b bs =>
        rw [dot_cons, Fin.sum_univ_succ]
        simp only [List.getD_cons_zero, List.getD_cons_succ, Fin.val_succ]
        rw [ih as bs (by simpa using hx) (by simpa using hy)]
        congr 1

theorem vecMat_length_le (d : Nat) : ∀ (C : Mat) (cs : Vec),
    (∀ r ∈ C, r.length = d) → (vecMat cs C).length ≤ d := by
  intro C
  induction C with
  | nil => intro cs _; cases cs <;> simp [vecMat]
  | cons r rs ih =>
    intro cs hr
    cases cs with
    | nil => simp [vecMat]
    | cons c cs' =>
      simp only [vecMat, addPad_length, smul_length]
      have h1 : r.length = d := hr r (by simp)
      have h2 := ih cs' (fun x hx => hr x (by simp [hx]))
      rw [h1]
      exact Nat.max_le.mpr ⟨Nat.le_refl d, h2⟩

theorem vecMat_getD (j : Nat) : ∀ (C : Mat) (cs : Vec), cs.length = C.length →
    (vecMat cs C).getD j 0 =
      ∑ i : Fin C.length, cs.getD i 0 * (C.getD i []).getD j 0 := by
  intro C
  induction C with
  | nil =>
    intro cs hc
    rw [List.eq_nil_of_length_eq_zero hc]
    simp [vecMat]
  | cons r rs ih =>
    intro cs hc
    cases cs with
    | nil => simp at hc
    | cons c cs' =>
      simp only [vecMat, addPad_getD, smul_getD, List.length_cons]
      rw [ih cs' (by simpa using hc), Fin.sum_univ_succ]
      simp

theorem vecMat_length_eq (d : Nat) (C : Mat) (cs : Vec) (hC : C ≠ [])
    (hc : cs.length = C.length) (hw : ∀ r ∈ C, r.length = d) :
    (vecMat cs C).length = d := by
  cases C with
  | nil => exact absurd rfl hC
  | cons r rs =>
    cases cs with
    | nil => simp at hc
    | cons c cs' =>
      simp only [vecMat, addPad_length, smul_length]
      rw [hw r (by simp)]
      have h2 := vecMat_length_le d rs cs' (fun x hx => hw x (by simp [hx]))
      exact Nat.max_eq_left h2

theorem addPad_vsub_cancel (x : Vec) : ∀ y : Vec, x.length = y.length →
    addPad (vsub x y) y = x := by
  induction x with
  | nil =>
    intro y h
    rw [(List.eq_nil_of_length_eq_zero h.symm : y = [])]
    rfl
  | cons a as ih =>
    intro y h
    cases y with
    | nil => simp at h
    | cons b bs =>
      show addPad ((a - b) :: vsub as bs) (b :: bs) = a :: as
      simp only [addPad, sub_add_cancel]
      rw [ih bs (by simpa using h)]

theorem foldr_addPad_length (w : Nat) : ∀ m : Mat, m ≠ [] →
    (∀ r ∈ m, r.length = w) → (m.foldr addPad []).length = w := by
  intro m
  induction m with
  | nil => intro h; exact absurd rfl h
  | cons r rs ih =>
    intro _ hr
    cases rs with
    | nil =>
      simp only [List.foldr, addPad_nil_right]
      exact hr r (by simp)
    | cons s ss =>
      show (addPad r ((s :: ss).foldr addPad [])).length = w
      rw [addPad_length, hr r (by simp), ih (by simp) (fun x hx => hr x (by simp [hx]))]
      exact Nat.max_self w

theorem arithMean_length (w : Nat) (m : Mat) (hm : m ≠ [])
    (hr : ∀ r ∈ m, r.length = w) : (arithMean m).length = w := by
  rw [arithMean, smul_length]
  exact foldr_addPad_length w m hm hr

theorem dot_comm (x : Vec) : ∀ y : Vec, dot x y = dot y x := by
  induction x with
  | nil => intro y; cases y <;> rfl
  | cons a as ih =>
    intro y
    cases y with
    | nil => rfl
    | cons b bs => rw [dot_cons, dot_cons, ih bs, mul_comm]

theorem getD_mem (l : Mat) (i : Nat) (h : i < l.length) : l.getD i [] ∈ l := by
  rw [List.getD_eq_getElem l [] h]
  exact List.getElem_mem h

/-- Orthonormality of the rows, read off at the level of coordinate sums. -/
theorem ortho_pair_sum (C : Mat) (d : Nat) (hw : ∀ r ∈ C, r.length = d)
    (horth : OrthonormalRows C) (a b : Nat) (ha : a < C.length) (hb : b < C.length) :
    ∑ l : Fin d, (C.getD a []).getD l 0 * (C.getD b []).getD l 0 =
      if a = b then 1 else 0 := by
  rw [← dot_eq_sum d _ _ (hw _ (getD_mem C a ha)) (hw _ (getD_mem C b hb))]
  exact horth a b ha hb

/-- For a square orthonormal family the column sums are also orthonormal:
`C * Cᵀ = 1` forces `Cᵀ * C = 1`. -/
theorem ortho_square_sum (C : Mat) (hw : ∀ r ∈ C, r.length = C.length)
    (horth : OrthonormalRows C) (l j : Nat) (hl : l < C.length) (hj : j < C.length) :
    ∑ i : Fin C.length, (C.getD i []).getD l 0 * (C.getD i []).getD j 0 =
      if l = j then 1 else 0 := by
  let M : Matrix (Fin C.length) (Fin C.length) ℚ :=
    Matrix.of fun i j => (C.getD i []).getD j 0
  have hMMt : M * M.transpose = 1 := by
    ext a b
    have := ortho_pair_sum C C.length hw horth a b a.isLt b.isLt
    simp only [Matrix.mul_apply, Matrix.transpose_apply, Matrix.of_apply, M,
      Matrix.one_apply]
    rw [this]
    by_cases hab : a = b
    · simp [hab]
    · rw [if_neg hab, if_neg (fun h => hab (Fin.ext h))]
  have hMtM : M.transpose * M = 1 := Matrix.mul_eq_one_comm.mp hMMt
  have := congrArg (fun A => A ⟨l, hl⟩ ⟨j, hj⟩) hMtM
  simp only [Matrix.mul_apply, Matrix.transpose_apply, Matrix.of_apply, M,
    Matrix.one_apply] at this
  rw [this]
  by_cases hlj : l = j
  · simp [hlj]
  · rw [if_neg (fun h => hlj (by simpa using Fin.ext_iff.mp h)), if_neg hlj]

/-- Projecting a linear combination of orthonormal rows back onto a row
recovers the coefficient. -/
theorem sum_vecMat_dot (C : Mat) (d : Nat) (t : Vec) (hw : ∀ r ∈ C, r.length = d)
    (ht : t.length = C.length) (horth : OrthonormalRows C)
    (i : Nat) (hi : i < C.length) :
    ∑ l : Fin d, (vecMat t C).getD l 0 * (C.getD i []).getD l 0 = t.getD i 0 := by
  have step : ∀ l : Fin d, (vecMat t C).getD l 0 * (C.getD i []).getD l 0 =
      ∑ j : Fin C.length, t.getD j 0 * ((C.getD j []).getD l 0 * (C.getD i []).getD l 0) := by
    intro l
    rw [vecMat_getD l C t ht, Finset.sum_mul]
    exact Finset.sum_congr rfl (fun j _ => by ring)
  rw [Finset.sum_congr rfl (fun l _ => step l), Finset.sum_comm]
  have inner : ∀ j : Fin C.length,
      ∑ l : Fin d, t.getD j 0 * ((C.getD j []).getD l 0 * (C.getD i []).getD l 0) =
        t.getD j 0 * (if (j : Nat) = i then 1 else 0) := by
    intro j
    rw [← Finset.mul_sum, ortho_pair_sum C d hw horth j i j.isLt hi]
  rw [Finset.sum_congr rfl (fun j _ => inner j)]
  simp only [mul_ite, mul_one, mul_zero]
  have conv1 : ∀ j : Fin C.length,
      (if (j : Nat) = i then t.getD j 0 else 0) =
        (if j = ⟨i, hi⟩ then t.getD j 0 else 0) :=
    fun j => if_congr (by simp [Fin.ext_iff]) rfl rfl
  rw [Finset.sum_congr rfl (fun j _ => conv1 j),
    Finset.sum_ite_eq' Finset.univ (⟨i, hi⟩ : Fin C.length) (fun j => t.getD j 0)]
  simp

/-- Expanding a vector over a square orthonormal family reconstructs it. -/
theorem vecMat_proj_self (C : Mat) (v : Vec)
    (hw : ∀ r ∈ C, r.length = C.length) (horth : OrthonormalRows C)
    (hv : v.length = C.length) :
    vecMat (C.map fun c => dot v c) C = v := by
  by_cases hC : C = []
  · subst hC
    rw [(List.eq_nil_of_length_eq_zero hv : v = [])]
    rfl
  · apply list_ext_getD
    · rw [vecMat_length_eq C.length C _ hC (by simp) hw, hv]
    · intro i
      by_cases hi : i < C.length
      · rw [vecMat_getD i C _ (by simp)]
        have step : ∀ j : Fin C.length,
            (C.map fun c => dot v c).getD j 0 * (C.getD j []).getD i 0 =
              ∑ l : Fin C.length,
                v.getD l 0 * ((C.getD j []).getD l 0 * (C.getD j []).getD i 0) := by
          intro j
          rw [getD_map _ C j j.isLt,
            dot_eq_sum C.length v _ hv (hw _ (getD_mem C j j.isLt)), Finset.sum_mul]
          exact Finset.sum_congr rfl (fun l _ => by ring)
        rw [Finset.sum_congr rfl (fun j _ => step j), Finset.sum_comm]
        have inner : ∀ l : Fin C.length,
            ∑ j : Fin C.length,
              v.getD l 0 * ((C.getD j []).getD l 0 * (C.getD j []).getD i 0) =
                v.getD l 0 * (if (l : Nat) = i then 1 else 0) := by
          intro l
          rw [← Finset.mul_sum, ortho_square_sum C hw horth l i l.isLt hi]
        rw [Finset.sum_congr rfl (fun l _ => inner l)]
        simp only [mul_ite, mul_one, mul_zero]
        have conv1 : ∀ l : Fin C.length,
            (if (l : Nat) = i then v.getD l 0 else 0) =
              (if l = ⟨i, hi⟩ then v.getD l 0 else 0) :=
          fun l => if_congr (by simp [Fin.ext_iff]) rfl rfl
        rw [Finset.sum_congr rfl (fun l _ => conv1 l),
          Finset.sum_ite_eq' Finset.univ (⟨i, hi⟩ : Fin C.length) (fun l => v.getD l 0)]
        simp
      · rw [List.getD_eq_default _ _ (by
            rw [vecMat_length_eq C.length C _ hC (by simp) hw]; omega),
          List.getD_eq_default _ _ (by rw [hv]; omega)]

/-- The residual of the projection onto an orthonormal family is orthogonal
to every member of the family. -/
theorem residual_orthogonal (C : Mat) (d : Nat) (v : Vec)
    (hw : ∀ r ∈ C, r.length = d) (horth : OrthonormalRows C) (hv : v.length = d)
    (i : Nat) (hi : i < C.length) :
    dot (vsub v (vecMat (C.map fun c => dot v c) C)) (C.getD i []) = 0 := by
  have hC : C ≠ [] := by
    intro h
    subst h
    simp at hi
  have hlen1 : (vecMat (C.map fun c => dot v c) C).length = d :=
    vecMat_length_eq d C _ hC (by simp) hw
  have hlen2 : (vsub v (vecMat (C.map fun c => dot v c) C)).length = d := by
    rw [vsub_length, hv, hlen1]
    exact Nat.min_self d
  rw [dot_eq_sum d _ _ hlen2 (hw _ (getD_mem C i hi))]
  have expand : ∀ l : Fin d,
      (vsub v (vecMat (C.map fun c => dot v c) C)).getD l 0 * (C.getD i []).getD l 0 =
        v.getD l 0 * (C.getD i []).getD l 0 -
          (vecMat (C.map fun c => dot v c) C).getD l 0 * (C.getD i []).getD l 0 := by
    intro l
    rw [vsub_getD v _ l (by rw [hv]; exact l.isLt) (by rw [hlen1]; exact l.isLt), sub_mul]
  rw [Finset.sum_congr rfl (fun l _ => expand l), Finset.sum_sub_distrib,
    sum_vecMat_dot C d _ hw (by simp) horth i hi, getD_map _ C i hi,
    dot_eq_sum d v _ hv (hw _ (getD_mem C i hi))]
  exact sub_self _

/-! ## Unfolding helpers for the embedded operations -/

theorem reshapeRows_ok (w : Nat) (l : List ℚ) (hw : 0 < w) (hdvd : w ∣ l.length) :
    reshapeRows w l = .ok (chunks w l) := by
  rw [reshapeRows, if_pos ⟨hw, hdvd⟩]

theorem transform_ok (p : FittedPCA) (rows : Mat)
    (h : ∀ r ∈ rows, r.length = p.mean.length) :
    p.transform rows =
      .ok (rows.map fun r => p.components.map fun c => dot (vsub r p.mean) c) := by
  have hc : (rows.all fun r => decide (r.length = p.mean.length)) = true :=
    List.all_eq_true.mpr fun r hr => decide_eq_true (h r hr)
  simp only [FittedPCA.transform, hc, if_true]

theorem inverse_transform_ok (p : FittedPCA) (coords : Vec)
    (h : coords.length = p.components.length) :
    p.inverse_transform coords = .ok (addPad (vecMat coords p.components) p.mean) := by
  rw [FittedPCA.inverse_transform, if_pos h]

theorem inverse_transform_err (p : FittedPCA) (coords : Vec)
    (h : coords.length ≠ p.components.length) :
    p.inverse_transform coords = .error "shapes not aligned" := by
  rw [FittedPCA.inverse_transform, if_neg h]

/-- `fit_pca` succeeds exactly when the reshape and the fit succeed, and
then replaces the `pca` field by the fit of the stored rows. -/
theorem fit_pca_ok (fit : FitFn) (o : PCAobject) (n : Nat) (o2 : PCAobject) :
    o.fit_pca fit n = .ok o2 ↔
      (0 < o.paramsWidth ∧ o.paramsWidth ∣ o.all_points.data.length) ∧
        ∃ f, fit n (chunks o.paramsWidth o.all_points.data) = .ok f ∧
          o2 = { o with pca := PcaField.fitted f } := by
  simp only [PCAobject.fit_pca, reshapeRows]
  by_cases hc : 0 < o.paramsWidth ∧ o.paramsWidth ∣ o.all_points.data.length
  · rw [if_pos hc]
    cases hf : fit n (chunks o.paramsWidth o.all_points.data) with
    | error e => simp [hc, hf]
    | ok f =>
      simp only [hc, hf, true_and]
      constructor
      · intro h
        cases h
        exact ⟨f, rfl, rfl⟩
      · rintro ⟨f', hf', rfl⟩
        cases hf'
        rfl
  · rw [if_neg hc]
    simp [hc]

/-- A failing `fit_pca` raises with the object holding the fresh unfitted
PCA instance (all other fields untouched). -/
theorem fit_pca_error (fit : FitFn) (o : PCAobject) (n : Nat) (oe : PCAobject)
    (h : o.fit_pca fit n = .error oe) :
    oe = { o with pca := PcaField.unfitted n } := by
  simp only [PCAobject.fit_pca] at h
  rcases hres : reshapeRows o.paramsWidth o.all_points.data with e | params
  · rw [hres] at h
    injection h with h2
    exact h2.symm
  · rw [hres] at h
    have hred : (match fit n params with
        | Except.error _ =>
          Except.error (α := PCAobject) { o with pca := PcaField.unfitted n }
        | Except.ok f =>
          Except.ok { o with pca := PcaField.fitted f }) = Except.error oe := h
    rcases hf : fit n params with e2 | f
    · rw [hf] at hred
      injection hred with h2
      exact h2.symm
    · rw [hf] at hred
      cases hred

/-! ## Fixture facts -/

theorem witInit : PCAobject.init witFit witArr (0, 1) = .ok witObj := by
  simp +decide [PCAobject.init, PCAobject.fit_pca, PCAobject.paramsWidth, reshapeRows,
    chunks, chunksF, witFit, witArr, witRows, witModel, witObj]

theorem witSet : witObj.set_component_ids witFit (1, 0) =
    .ok { witObj with components_ids := (1, 0) } := by
  simp +decide [PCAobject.set_component_ids, PCAobject.fit_pca, PCAobject.paramsWidth,
    reshapeRows, chunks, chunksF, witFit, witObj, witArr, witRows, witModel]

theorem witSetErr : witObj.set_component_ids witFit (0, 2) =
    .error { witObj with pca := PcaField.unfitted 3 } := by
  simp +decide [PCAobject.set_component_ids, PCAobject.fit_pca, PCAobject.paramsWidth,
    reshapeRows, chunks, chunksF, witFit, witObj, witArr, witRows, witModel]

theorem witFit_shape : FitShapeOK witFit := by
  intro n rows f h
  simp only [witFit] at h
  split at h
  case isTrue hc =>
    injection h with h2
    subst h2
    obtain ⟨hn, hrows⟩ := hc
    subst hn
    subst hrows
    refine ⟨by simp [witRows], by simp [witModel], ?_, ?_⟩
    · intro r hr
      simp [witRows] at hr
      rcases hr with rfl | rfl | rfl | rfl <;> simp [witModel]
    · intro c hc
      simp [witModel] at hc
      rcases hc with rfl | rfl <;> simp [witModel]
  case isFalse => cases h

theorem witFit_mean : FitMeanOK witFit := by
  intro n rows f h
  simp only [witFit] at h
  split at h
  case isTrue hc =>
    injection h with h2
    subst h2
    obtain ⟨hn, hrows⟩ := hc
    subst hrows
    show witModel.mean = arithMean witRows
    norm_num [witModel, witRows, arithMean, addPad, smul]
  case isFalse => cases h

theorem witOrth : OrthonormalRows witModel.components := by
  intro i j hi hj
  simp only [witModel, List.length_cons, List.length_nil] at hi hj
  interval_cases i <;> interval_cases j <;> norm_num [witModel, dot]

theorem witVar : VarianceOrdered witRows witModel := by
  intro i j hij hj
  simp only [witModel, List.length_cons, List.length_nil] at hj
  interval_cases j <;> interval_cases i <;>
    norm_num [witModel, witRows, projSumSq, dot, vsub]

/-! ## The claims -/

/-- C1: after construction with indices `ids`, and after every successful
`set_component_ids` with indices `new_ids`, the fitted model has exactly
`max ids + 1` (resp. `max new_ids + 1`) components; the refit inside
`set_component_ids` fits the original stored collection, and only then are
the stored component indices replaced by the new pair. -/
theorem claim_component_count_invariant (fit : FitFn) (hfit : FitShapeOK fit) :
    (∀ (a : NdArray) (ids : Nat × Nat) (o : PCAobject),
        PCAobject.init fit a ids = .ok o →
        ∃ f, o.pca = PcaField.fitted f ∧
          f.components.length = Nat.max ids.1 ids.2 + 1) ∧
    (∀ (o : PCAobject) (new_ids : Nat × Nat) (o2 : PCAobject),
        o.set_component_ids fit new_ids = .ok o2 →
        o2.all_points = o.all_points ∧ o2.params_shape = o.params_shape ∧
        o2.components_ids = new_ids ∧
        ∃ f, o2.pca = PcaField.fitted f ∧
          fit (Nat.max new_ids.1 new_ids.2 + 1)
            (chunks o.paramsWidth o.all_points.data) = .ok f ∧
          f.components.length = Nat.max new_ids.1 new_ids.2 + 1) := by
  constructor
  · intro a ids o h
    unfold PCAobject.init at h
    rw [fit_pca_ok] at h
    obtain ⟨-, f, hf, rfl⟩ := h
    exact ⟨f, rfl, (hfit _ _ _ hf).2.1⟩
  · intro o new_ids o2 h
    unfold PCAobject.set_component_ids at h
    rcases hfp : o.fit_pca fit (Nat.max new_ids.1 new_ids.2 + 1) with oe | o3
    · rw [hfp] at h
      cases h
    · rw [hfp] at h
      have h' : Except.ok (ε := PCAobject) { o3 with components_ids := new_ids } =
          .ok o2 := h
      injection h' with h2
      rw [fit_pca_ok] at hfp
      obtain ⟨-, f, hf, rfl⟩ := hfp
      subst h2
      exact ⟨rfl, rfl, rfl, f, rfl, hf, (hfit _ _ _ hf).2.1⟩

theorem claim_component_count_invariant_witness :
    (∃ f, witObj.pca = PcaField.fitted f ∧ f.components.length = 2) ∧
    ({ witObj with components_ids := (1, 0) } : PCAobject).components_ids = (1, 0) :=
  ⟨(claim_component_count_invariant witFit witFit_shape).1 witArr (0, 1) witObj witInit,
   ((claim_component_count_invariant witFit witFit_shape).2 witObj (1, 0)
     { witObj with components_ids := (1, 0) } witSet).2.2.1⟩

/-- C10: if the refit inside `set_component_ids` raises, the exception
propagates and the stored component indices (and the rest of the object's
plain fields) keep their previous values. -/
theorem claim_set_ids_error_keeps_ids (fit : FitFn) (o : PCAobject)
    (new_ids : Nat × Nat) (o1 : PCAobject)
    (h : o.set_component_ids fit new_ids = .error o1) :
    o1.components_ids = o.components_ids ∧ o1.all_points = o.all_points ∧
      o1.params_shape = o.params_shape := by
  unfold PCAobject.set_component_ids at h
  rcases hfp : o.fit_pca fit (Nat.max new_ids.1 new_ids.2 + 1) with oe | o3
  · rw [hfp] at h
    have h' : Except.error (α := PCAobject) oe = .error o1 := h
    injection h' with h2
    subst h2
    rw [fit_pca_error fit o _ oe hfp]
    exact ⟨rfl, rfl, rfl⟩
  · rw [hfp] at h
    cases h

theorem claim_set_ids_error_keeps_ids_witness :
    ({ witObj with pca := PcaField.unfitted 3 } : PCAobject).components_ids =
      witObj.components_ids :=
  (claim_set_ids_error_keeps_ids witFit witObj (0, 2)
    { witObj with pca := PcaField.unfitted 3 } witSetErr).1

theorem pyMin_spec (l : Vec) (hl : l ≠ []) :
    ∃ a, pyMin l = .ok a ∧ a ∈ l ∧ ∀ b ∈ l, a ≤ b := by
  cases hm : l.min? with
  | none => exact absurd (List.min?_eq_none_iff.mp hm) hl
  | some a =>
    have inst : Std.Antisymm (fun x1 x2 : ℚ => x1 ≤ x2) :=
      ⟨fun h1 h2 => le_antisymm h1 h2⟩
    have h := List.min?_eq_some_iff (fun a => le_refl a) (fun a b => min_choice a b)
      (fun a b c => le_min_iff) |>.mp hm
    exact ⟨a, by simp [pyMin, hm], h.1, h.2⟩

theorem pyMax_spec (l : Vec) (hl : l ≠ []) :
    ∃ a, pyMax l = .ok a ∧ a ∈ l ∧ ∀ b ∈ l, b ≤ a := by
  cases hm : l.max? with
  | none => exact absurd (List.max?_eq_none_iff.mp hm) hl
  | some a =>
    have inst : Std.Antisymm (fun x1 x2 : ℚ => x1 ≤ x2) :=
      ⟨fun h1 h2 => le_antisymm h1 h2⟩
    have h := List.max?_eq_some_iff (fun a => le_refl a) (fun a b => max_choice a b)
      (fun a b c => max_le_iff) |>.mp hm
    exact ⟨a, by simp [pyMax, hm], h.1, h.2⟩

theorem column_ok (j : Nat) (m : Mat) (h : ∀ r ∈ m, j < r.length) :
    column j m = .ok (m.map fun r => r.getD j 0) := by
  have hc : (m.all fun r => decide (j < r.length)) = true :=
    List.all_eq_true.mpr fun r hr => decide_eq_true (h r hr)
  simp only [column, hc, if_true]

/-- Successful evaluation of `get_transformed_points` on a fitted object. -/
theorem get_transformed_points_eq (o : PCAobject) (f : FittedPCA)
    (hpca : o.pca = PcaField.fitted f) (pts : Option NdArray)
    (hw : 0 < o.paramsWidth)
    (hdvd : o.paramsWidth ∣ (pts.getD o.all_points).data.length)
    (hrows : ∀ r ∈ chunks o.paramsWidth (pts.getD o.all_points).data,
      r.length = f.mean.length) :
    o.get_transformed_points pts =
      .ok ((chunks o.paramsWidth (pts.getD o.all_points).data).map
        (fun r => f.components.map fun c => dot (vsub r f.mean) c)) := by
  simp only [PCAobject.get_transformed_points,
    reshapeRows_ok _ _ hw hdvd, hpca]
  exact transform_ok f _ hrows

/-- Successful evaluation of `get_inverse_transformed_point` on a fitted
object with matching widths. -/
theorem get_inverse_ok (o : PCAobject) (f : FittedPCA)
    (hpca : o.pca = PcaField.fitted f)
    (hmean : f.mean.length = o.paramsWidth)
    (hcw : ∀ c ∈ f.components, c.length = o.paramsWidth)
    (coords : Vec) (hlen : coords.length = f.components.length) :
    o.get_inverse_transformed_point coords =
      .ok { shape := o.params_shape,
            data := addPad (vecMat coords f.components) f.mean } := by
  have hvl : (addPad (vecMat coords f.components) f.mean).length = o.params_shape.prod := by
    rw [addPad_length, hmean]
    exact Nat.max_eq_right (vecMat_length_le _ _ _ hcw)
  simp only [PCAobject.get_inverse_transformed_point, hpca,
    inverse_transform_ok f coords hlen]
  rw [if_pos hvl]

/-- Failing evaluation of `get_inverse_transformed_point` on a coordinate
vector of the wrong length. -/
theorem get_inverse_err (o : PCAobject) (f : FittedPCA)
    (hpca : o.pca = PcaField.fitted f) (coords : Vec)
    (hne : coords.length ≠ f.components.length) :
    o.get_inverse_transformed_point coords = .error "shapes not aligned" := by
  simp only [PCAobject.get_inverse_transformed_point, hpca,
    inverse_transform_err f coords hne]

/-- C2: on a fitted projector, `get_transformed_points` projects the stored
collection (argument `none`) or a caller-supplied collection of the same
parameter shape onto all fitted components, returning one row per point and
one column per fitted component — `max(ids) + 1` of them, not two. -/
theorem claim_transform_shape (o : PCAobject) (f : FittedPCA)
    (hpca : o.pca = PcaField.fitted f) (hw : 0 < o.paramsWidth)
    (hmean : f.mean.length = o.paramsWidth)
    (hn : f.components.length = Nat.max o.components_ids.1 o.components_ids.2 + 1) :
    (o.paramsWidth ∣ o.all_points.data.length →
      o.get_transformed_points none =
        .ok ((chunks o.paramsWidth o.all_points.data).map
          (fun r => f.components.map fun c => dot (vsub r f.mean) c))) ∧
    (∀ (pts : NdArray) (m : Nat), pts.data.length = m * o.paramsWidth →
      ∃ res, o.get_transformed_points (some pts) = .ok res ∧
        res.length = m ∧
        (∀ row ∈ res, row.length = Nat.max o.components_ids.1 o.components_ids.2 + 1) ∧
        res = (chunks o.paramsWidth pts.data).map
          (fun r => f.components.map fun c => dot (vsub r f.mean) c)) := by
  constructor
  · intro hdvd
    exact get_transformed_points_eq o f hpca none hw hdvd
      (fun r hr => by
        rw [chunks_row_length _ hw _ hdvd r hr, hmean])
  · intro pts m hm
    have hdvd : o.paramsWidth ∣ pts.data.length := ⟨m, by rw [hm, Nat.mul_comm]⟩
    have h := get_transformed_points_eq o f hpca (some pts) hw (by simpa using hdvd)
      (fun r hr => by
        rw [chunks_row_length _ hw _ (by simpa using hdvd) r (by simpa using hr), hmean])
    rw [Option.getD_some] at h
    refine ⟨_, h, ?_, ?_, rfl⟩
    · rw [List.length_map, chunks_count _ hw _ hdvd, hm,
        Nat.mul_div_cancel m hw]
    · intro row hrow
      obtain ⟨r, -, rfl⟩ := List.mem_map.mp hrow
      rw [List.length_map, hn]

theorem claim_transform_shape_witness :
    (witObj.get_transformed_points none =
      .ok ((chunks witObj.paramsWidth witObj.all_points.data).map
        (fun r => witModel.components.map fun c => dot (vsub r witModel.mean) c))) ∧
    ∃ res, witObj.get_transformed_points
        (some { shape := [1, 2], data := [1, 0] }) = .ok res ∧
      res.length = 1 :=
  ⟨(claim_transform_shape witObj witModel rfl (by decide) (by decide) (by decide)).1
      (by decide),
   by
    obtain ⟨res, h1, h2, -, -⟩ :=
      (claim_transform_shape witObj witModel rfl (by decide) (by decide) (by decide)).2
        { shape := [1, 2], data := [1, 0] } 1 (by decide)
    exact ⟨res, h1, h2⟩⟩

/-- C3: on a fitted projector, `get_inverse_transformed_point` applied to a
coordinate vector of the fitted length returns one parameter vector of shape
`params_shape` whose entries are the linear reconstruction
`coordinates · components + mean`. -/
theorem claim_inverse_reconstruction (o : PCAobject) (f : FittedPCA)
    (hpca : o.pca = PcaField.fitted f)
    (hmean : f.mean.length = o.paramsWidth)
    (hcw : ∀ c ∈ f.components, c.length = o.paramsWidth)
    (coords : Vec) (hlen : coords.length = f.components.length) :
    o.get_inverse_transformed_point coords =
      .ok { shape := o.params_shape,
            data := addPad (vecMat coords f.components) f.mean } ∧
    (addPad (vecMat coords f.components) f.mean).length = o.paramsWidth ∧
    ∀ j : Nat,
      (addPad (vecMat coords f.components) f.mean).getD j 0 =
        (∑ i : Fin f.components.length,
          coords.getD i 0 * (f.components.getD i []).getD j 0) + f.mean.getD j 0 := by
  refine ⟨get_inverse_ok o f hpca hmean hcw coords hlen, ?_, ?_⟩
  · rw [addPad_length, hmean]
    exact Nat.max_eq_right (vecMat_length_le _ _ _ hcw)
  · intro j
    rw [addPad_getD, vecMat_getD j f.components coords hlen]

theorem claim_inverse_reconstruction_witness :
    witObj.get_inverse_transformed_point [5, 7] =
      .ok { shape := witObj.params_shape,
            data := addPad (vecMat [5, 7] witModel.components) witModel.mean } :=
  (claim_inverse_reconstruction witObj witModel rfl (by decide) (by decide)
    [5, 7] (by decide)).1

/-- C8: on a fitted projector, transforming a supplied collection with zero
points but the correct parameter shape succeeds and returns zero rows. -/
theorem claim_transform_empty (o : PCAobject) (f : FittedPCA)
    (hpca : o.pca = PcaField.fitted f) (hw : 0 < o.paramsWidth) :
    o.get_transformed_points
      (some { shape := 0 :: o.params_shape, data := [] }) = .ok [] := by
  have h := get_transformed_points_eq o f hpca
    (some { shape := 0 :: o.params_shape, data := [] }) hw (by simp)
    (by simp [chunks_nil])
  simpa [chunks_nil] using h

theorem claim_transform_empty_witness :
    witObj.get_transformed_points
      (some { shape := 0 :: witObj.params_shape, data := [] }) = .ok [] :=
  claim_transform_empty witObj witModel rfl (by decide)

/-- C9: on a fitted projector, `get_inverse_transformed_point` fails exactly
when the coordinate vector's length differs from the number of fitted
components, and succeeds on every coordinate vector of the right length. -/
theorem claim_inverse_length_check (o : PCAobject) (f : FittedPCA)
    (hpca : o.pca = PcaField.fitted f)
    (hmean : f.mean.length = o.paramsWidth)
    (hcw : ∀ c ∈ f.components, c.length = o.paramsWidth)
    (coords : Vec) :
    (∃ y, o.get_inverse_transformed_point coords = .ok y) ↔
      coords.length = f.components.length := by
  constructor
  · intro ⟨y, hy⟩
    by_contra hne
    rw [get_inverse_err o f hpca coords hne] at hy
    cases hy
  · intro hlen
    exact ⟨_, get_inverse_ok o f hpca hmean hcw coords hlen⟩

theorem claim_inverse_length_check_witness :
    ((∃ y, witObj.get_inverse_transformed_point [5, 7] = .ok y) ↔
      ([5, 7] : Vec).length = witModel.components.length) ∧
    ((∃ y, witObj.get_inverse_transformed_point [1, 2, 3] = .ok y) ↔
      ([1, 2, 3] : Vec).length = witModel.components.length) :=
  ⟨claim_inverse_length_check witObj witModel rfl (by decide) (by decide) [5, 7],
   claim_inverse_length_check witObj witModel rfl (by decide) (by decide) [1, 2, 3]⟩

/-- C6: on a projector built from a non-empty collection with a
mean-recording fit, the `mean` property returns the arithmetic mean of the
stored collection's flattened rows, reshaped to `params_shape`. -/
theorem claim_mean_is_arith_mean (fit : FitFn) (hfm : FitMeanOK fit)
    (a : NdArray) (ids : Nat × Nat) (o : PCAobject)
    (hinit : PCAobject.init fit a ids = .ok o)
    (hne : a.data ≠ []) :
    o.meanView = .ok { shape := a.shape.tail,
                       data := arithMean (chunks a.shape.tail.prod a.data) } := by
  unfold PCAobject.init at hinit
  rw [fit_pca_ok] at hinit
  obtain ⟨⟨hw, hdvd⟩, f, hf, rfl⟩ := hinit
  simp only [PCAobject.paramsWidth] at hw hdvd hf
  have hfmean := hfm _ _ _ hf
  have hrows_ne : chunks a.shape.tail.prod a.data ≠ [] := by
    rw [chunks_cons _ _ hw hne]
    simp
  have hlen : f.mean.length = a.shape.tail.prod := by
    rw [hfmean]
    exact arithMean_length _ _ hrows_ne (chunks_row_length _ hw _ hdvd)
  simp only [PCAobject.meanView, hlen, if_true, hfmean]
  rw [if_pos (arithMean_length _ _ hrows_ne (chunks_row_length _ hw _ hdvd))]

theorem claim_mean_is_arith_mean_witness :
    witObj.meanView = .ok { shape := witArr.shape.tail,
                            data := arithMean (chunks witArr.shape.tail.prod witArr.data) } :=
  claim_mean_is_arith_mean witFit witFit_mean witArr (0, 1) witObj witInit (by decide)

theorem getD_map_nd (g : Vec → NdArray) : ∀ (l : Mat) (i : Nat), i < l.length →
    (l.map g).getD i { shape := [], data := [] } = g (l.getD i []) := by
  intro l
  induction l with
  | nil => intro i hi; simp at hi
  | cons a as ih =>
    intro i hi
    cases i with
    | zero => simp
    | succ n => simpa using ih n (by simpa using hi)

theorem witChunks : chunks witObj.paramsWidth witObj.all_points.data = witRows := by
  simp +decide [chunks, chunksF, witObj, witArr, witRows, PCAobject.paramsWidth]

/-- C7: on a fitted projector whose components come from an orthonormal,
variance-ordered fit, the `components` property returns exactly as many
direction arrays as there are fitted components, each of shape
`params_shape`, with mutually orthonormal data rows ordered by descending
explained variance over the stored collection. -/
theorem claim_components_view (o : PCAobject) (f : FittedPCA)
    (hpca : o.pca = PcaField.fitted f) (hw : 0 < o.paramsWidth)
    (hcw : ∀ c ∈ f.components, c.length = o.paramsWidth)
    (horth : OrthonormalRows f.components)
    (hvar : VarianceOrdered (chunks o.paramsWidth o.all_points.data) f) :
    ∃ L, o.componentsView = .ok L ∧
      L.length = f.components.length ∧
      (∀ x ∈ L, x.shape = o.params_shape) ∧
      (∀ i j : Nat, i < L.length → j < L.length →
        dot (L.getD i { shape := [], data := [] }).data
            (L.getD j { shape := [], data := [] }).data =
          if i = j then 1 else 0) ∧
      (∀ i j : Nat, i ≤ j → j < L.length →
        projSumSq (chunks o.paramsWidth o.all_points.data) f.mean
            (L.getD j { shape := [], data := [] }).data ≤
          projSumSq (chunks o.paramsWidth o.all_points.data) f.mean
            (L.getD i { shape := [], data := [] }).data) := by
  have hflat : chunks o.paramsWidth f.components.flatten = f.components :=
    chunks_flatten _ hw _ hcw
  have hdvd : o.paramsWidth ∣ f.components.flatten.length := by
    rw [flatten_length_of_rows _ _ hcw]
    exact dvd_mul_left _ _
  refine ⟨f.components.map (fun c => { shape := o.params_shape, data := c }),
    ?_, ?_, ?_, ?_, ?_⟩
  · simp only [PCAobject.componentsView, hpca, reshapeRows_ok _ _ hw hdvd, hflat]
  · simp
  · intro x hx
    obtain ⟨c, -, rfl⟩ := List.mem_map.mp hx
    rfl
  · intro i j hi hj
    simp only [List.length_map] at hi hj
    rw [getD_map_nd _ _ _ hi, getD_map_nd _ _ _ hj]
    exact horth i j hi hj
  · intro i j hij hj
    simp only [List.length_map] at hj
    rw [getD_map_nd _ _ _ hj, getD_map_nd _ _ _ (lt_of_le_of_lt hij hj)]
    exact hvar i j hij hj

theorem claim_components_view_witness :
    ∃ L, witObj.componentsView = .ok L ∧
      L.length = witModel.components.length ∧
      (∀ x ∈ L, x.shape = witObj.params_shape) ∧
      (∀ i j : Nat, i < L.length → j < L.length →
        dot (L.getD i { shape := [], data := [] }).data
            (L.getD j { shape := [], data := [] }).data =
          if i = j then 1 else 0) ∧
      (∀ i j : Nat, i ≤ j → j < L.length →
        projSumSq (chunks witObj.paramsWidth witObj.all_points.data) witModel.mean
            (L.getD j { shape := [], data := [] }).data ≤
          projSumSq (chunks witObj.paramsWidth witObj.all_points.data) witModel.mean
            (L.getD i { shape := [], data := [] }).data) :=
  claim_components_view witObj witModel rfl (by decide) (by decide) witOrth
    (by rw [witChunks]; exact witVar)

/-- C4: on a fitted projector with a non-empty stored collection,
`_get_endpoints_from_pca` projects the stored collection onto all fitted
directions and returns, for each of the two display axes, the pair
(minimum projected value + offset.1, maximum projected value + offset.2),
as an x-range and a y-range. -/
theorem claim_endpoints (o : PCAobject) (f : FittedPCA)
    (hpca : o.pca = PcaField.fitted f) (hw : 0 < o.paramsWidth)
    (hdvd : o.paramsWidth ∣ o.all_points.data.length)
    (hne : o.all_points.data ≠ [])
    (hmean : f.mean.length = o.paramsWidth)
    (hi1 : o.components_ids.1 < f.components.length)
    (hi2 : o.components_ids.2 < f.components.length)
    (offset : ℚ × ℚ) :
    ∃ lo1 up1 lo2 up2 : ℚ,
      lo1 ∈ projColumn o f o.components_ids.1 ∧
      (∀ x ∈ projColumn o f o.components_ids.1, lo1 ≤ x) ∧
      up1 ∈ projColumn o f o.components_ids.1 ∧
      (∀ x ∈ projColumn o f o.components_ids.1, x ≤ up1) ∧
      lo2 ∈ projColumn o f o.components_ids.2 ∧
      (∀ x ∈ projColumn o f o.components_ids.2, lo2 ≤ x) ∧
      up2 ∈ projColumn o f o.components_ids.2 ∧
      (∀ x ∈ projColumn o f o.components_ids.2, x ≤ up2) ∧
      o.get_endpoints_from_pca offset =
        .ok ((lo1 + offset.1, up1 + offset.2), (lo2 + offset.1, up2 + offset.2)) := by
  have hrowlen := chunks_row_length _ hw _ hdvd
  have ht := get_transformed_points_eq o f hpca none hw hdvd
    (fun r hr => by rw [hrowlen r hr, hmean])
  rw [Option.getD_none] at ht
  have hcolall : ∀ j : Nat, j < f.components.length →
      ∀ row ∈ (chunks o.paramsWidth o.all_points.data).map
        (fun r => f.components.map fun c => dot (vsub r f.mean) c), j < row.length := by
    intro j hj row hrow
    obtain ⟨r, -, rfl⟩ := List.mem_map.mp hrow
    simpa using hj
  have hcoleq : ∀ j : Nat, j < f.components.length →
      ((chunks o.paramsWidth o.all_points.data).map
        (fun r => f.components.map fun c => dot (vsub r f.mean) c)).map
          (fun row => row.getD j 0) = projColumn o f j := by
    intro j hj
    rw [List.map_map]
    apply List.map_congr_left
    intro r _
    simp only [Function.comp]
    exact getD_map _ _ _ hj
  have hcol1 := (column_ok o.components_ids.1 _ (hcolall _ hi1)).trans
    (congrArg Except.ok (hcoleq _ hi1))
  have hcol2 := (column_ok o.components_ids.2 _ (hcolall _ hi2)).trans
    (congrArg Except.ok (hcoleq _ hi2))
  have hchne : chunks o.paramsWidth o.all_points.data ≠ [] := by
    rw [chunks_cons _ _ hw hne]
    simp
  have hcne : ∀ j : Nat, projColumn o f j ≠ [] := by
    intro j h
    exact hchne (List.map_eq_nil_iff.mp h)
  obtain ⟨lo1, hlo1eq, hlo1mem, hlo1le⟩ := pyMin_spec _ (hcne o.components_ids.1)
  obtain ⟨up1, hup1eq, hup1mem, hup1le⟩ := pyMax_spec _ (hcne o.components_ids.1)
  obtain ⟨lo2, hlo2eq, hlo2mem, hlo2le⟩ := pyMin_spec _ (hcne o.components_ids.2)
  obtain ⟨up2, hup2eq, hup2mem, hup2le⟩ := pyMax_spec _ (hcne o.components_ids.2)
  refine ⟨lo1, up1, lo2, up2, hlo1mem, hlo1le, hup1mem, hup1le,
    hlo2mem, hlo2le, hup2mem, hup2le, ?_⟩
  simp only [PCAobject.get_endpoints_from_pca, ht, hcol1, hcol2,
    hlo1eq, hup1eq, hlo2eq, hup2eq, bind, Except.bind, pure, Except.pure]

theorem claim_endpoints_witness :
    ∃ lo1 up1 lo2 up2 : ℚ,
      lo1 ∈ projColumn witObj witModel witObj.components_ids.1 ∧
      (∀ x ∈ projColumn witObj witModel witObj.components_ids.1, lo1 ≤ x) ∧
      up1 ∈ projColumn witObj witModel witObj.components_ids.1 ∧
      (∀ x ∈ projColumn witObj witModel witObj.components_ids.1, x ≤ up1) ∧
      lo2 ∈ projColumn witObj witModel witObj.components_ids.2 ∧
      (∀ x ∈ projColumn witObj witModel witObj.components_ids.2, lo2 ≤ x) ∧
      up2 ∈ projColumn witObj witModel witObj.components_ids.2 ∧
      (∀ x ∈ projColumn witObj witModel witObj.components_ids.2, x ≤ up2) ∧
      witObj.get_endpoints_from_pca (-1, 1) =
        .ok ((lo1 + (-1, 1).1, up1 + (-1, 1).2), (lo2 + (-1, 1).1, up2 + (-1, 1).2)) :=
  claim_endpoints witObj witModel rfl (by decide) (by decide) (by decide)
    (by decide) (by decide) (by decide) (-1, 1)

/-- C5: on a fitted projector with orthonormal components, transforming a
stored point and inverse-transforming the result yields the orthogonal
projection of the point onto the fitted affine subspace (a combination of
the components plus the mean, with residual orthogonal to every component);
when the number of fitted components equals the parameter dimensionality the
round trip returns the point exactly. -/
theorem claim_round_trip (o : PCAobject) (f : FittedPCA)
    (hpca : o.pca = PcaField.fitted f) (hw : 0 < o.paramsWidth)
    (hdvd : o.paramsWidth ∣ o.all_points.data.length)
    (hmean : f.mean.length = o.paramsWidth)
    (hcw : ∀ c ∈ f.components, c.length = o.paramsWidth)
    (horth : OrthonormalRows f.components)
    (r : Vec) (hr : r ∈ chunks o.paramsWidth o.all_points.data) :
    ∃ t y, o.get_transformed_points
        (some { shape := 1 :: o.params_shape, data := r }) = .ok [t] ∧
      o.get_inverse_transformed_point t = .ok y ∧
      y.shape = o.params_shape ∧
      (∃ coeffs : Vec, coeffs.length = f.components.length ∧
        y.data = addPad (vecMat coeffs f.components) f.mean) ∧
      (∀ i : Nat, i < f.components.length →
        dot (vsub r y.data) (f.components.getD i []) = 0) ∧
      (f.components.length = o.paramsWidth → y.data = r) := by
  have hrl : r.length = o.paramsWidth := chunks_row_length _ hw _ hdvd r hr
  have hv : (vsub r f.mean).length = o.paramsWidth := by
    rw [vsub_length, hrl, hmean]
    exact Nat.min_self _
  have ht := get_transformed_points_eq o f hpca
    (some { shape := 1 :: o.params_shape, data := r }) hw
    (by simp [hrl])
    (by
      intro x hx
      simp only [Option.getD_some] at hx
      rw [chunks_singleton _ hw _ hrl] at hx
      simp at hx
      rw [hx, hrl, hmean])
  rw [Option.getD_some] at ht
  simp only at ht
  rw [chunks_singleton _ hw _ hrl] at ht
  simp only [List.map_cons, List.map_nil] at ht
  set t : Vec := f.components.map (fun c => dot (vsub r f.mean) c) with htdef
  have hinv := get_inverse_ok o f hpca hmean hcw t (by simp [htdef])
  refine ⟨t, _, ht, hinv, rfl, ⟨t, by simp [htdef], rfl⟩, ?_, ?_⟩
  · intro i hi
    have hC : f.components ≠ [] := by
      intro h
      rw [h] at hi
      simp at hi
    have hu : (vecMat t f.components).length = o.paramsWidth :=
      vecMat_length_eq _ _ _ hC (by simp [htdef]) hcw
    have hyd : (addPad (vecMat t f.components) f.mean).length = o.paramsWidth := by
      rw [addPad_length, hu, hmean]
      exact Nat.max_self _
    have hsub : vsub r (addPad (vecMat t f.components) f.mean) =
        vsub (vsub r f.mean) (vecMat t f.components) := by
      apply list_ext_getD
      · rw [vsub_length, vsub_length, hrl, hyd, hv, hu]
      · intro l
        by_cases hl : l < o.paramsWidth
        · rw [vsub_getD _ _ _ (by omega) (by rw [hyd]; omega), addPad_getD,
            vsub_getD _ _ _ (by rw [hv]; omega) (by rw [hu]; omega),
            vsub_getD _ _ _ (by rw [hrl]; omega) (by rw [hmean]; omega)]
          ring
        · rw [List.getD_eq_default _ _
              (by rw [vsub_length, hrl, hyd, Nat.min_self]; omega),
            List.getD_eq_default _ _
              (by rw [vsub_length, hv, hu, Nat.min_self]; omega)]
    rw [hsub, htdef]
    exact residual_orthogonal f.components o.paramsWidth (vsub r f.mean)
      hcw horth hv i hi
  · intro hkd
    have hproj : vecMat t f.components = vsub r f.mean := by
      rw [htdef]
      exact vecMat_proj_self f.components (vsub r f.mean)
        (fun c hc => by rw [hcw c hc, hkd]) horth (by rw [hv, hkd])
    show addPad (vecMat t f.components) f.mean = r
    rw [hproj]
    exact addPad_vsub_cancel r f.mean (by rw [hrl, hmean])

theorem claim_round_trip_witness :
    ∃ t y, witObj.get_transformed_points
        (some { shape := 1 :: witObj.params_shape, data := [1, 0] }) = .ok [t] ∧
      witObj.get_inverse_transformed_point t = .ok y ∧
      y.shape = witObj.params_shape ∧
      (∃ coeffs : Vec, coeffs.length = witModel.components.length ∧
        y.data = addPad (vecMat coeffs witModel.components) witModel.mean) ∧
      (∀ i : Nat, i < witModel.components.length →
        dot (vsub [1, 0] y.data) (witModel.components.getD i []) = 0) ∧
      (witModel.components.length = witObj.paramsWidth → y.data = [1, 0]) :=
  claim_round_trip witObj witModel rfl (by decide) (by decide) (by decide)
    (by decide) witOrth [1, 0] (by rw [witChunks]; simp [witRows])

end Orqviz
